import Mathlib

/-!
Shallow embedding of the vinnodrive file-storage service (src/main.py).

Strings are Lean strings; byte contents of uploaded files are represented by
their content fingerprint (the SHA-256 hex digest computed by calculate_hash),
since the hash is deterministic and used by the code purely as a content
identity key.  Sizes are natural numbers of bytes (os.path.getsize returns a
nonnegative integer).  Wall-clock time (time.time) is a rational number of
seconds.  The SQLite database of UserFile rows is a list of FileRecord values
in insertion order; filtering a list models a SQL query with a WHERE clause,
find? models .first(), and list length models .count().  The filesystem is
split into committed object paths (disk) and staged temporary paths (staged);
temporary names carry a fresh uuid in the source, which keeps the two name
spaces disjoint.  Fallible filesystem operations are modelled by a FailAt
schedule naming the point where an OSError is raised, mirroring the except
branch of the upload route.
-/

namespace VinnoDrive

/-- Whitespace characters stripped by Python str.strip(). -/
def pyWhitespace (c : Char) : Bool :=
  c = ' ' || c = '\t' || c = '\n' || c = '\r' || c = '\x0b' || c = '\x0c'

/-- Python str.strip(): drop leading and trailing whitespace. -/
def pyStripList (l : List Char) : List Char :=
  ((l.dropWhile pyWhitespace).reverse.dropWhile pyWhitespace).reverse

/-- One pass of Python str.replace of "//" by "/": left to right, non overlapping. -/
def replDS : List Char → List Char
  | [] => []
  | [c] => [c]
  | c1 :: c2 :: rest =>
    if c1 = '/' ∧ c2 = '/' then '/' :: replDS rest
    else c1 :: replDS (c2 :: rest)

/-- Whether the substring "//" occurs, the loop condition of the while in
normalize_folder_path. -/
def hasDS : List Char → Bool
  | c1 :: c2 :: rest => (c1 = '/' && c2 = '/') || hasDS (c2 :: rest)
  | _ => false

/-- The while loop of normalize_folder_path, with explicit fuel.  Each pass of
replDS strictly shortens a string containing "//", so fuel equal to the length
of the string always reaches the fixed point (proved below). -/
def collapseDS : Nat → List Char → List Char
  | 0, l => l
  | fuel + 1, l => if hasDS l then collapseDS fuel (replDS l) else l

/-- The while loop run with sufficient fuel. -/
def collapseSlashes (l : List Char) : List Char := collapseDS l.length l

/-- Ensure leading slash (src/main.py lines 114-115). -/
def ensureLeading (l : List Char) : List Char :=
  if l.head? = some '/' then l else '/' :: l

/-- Ensure trailing slash (src/main.py lines 117-118). -/
def ensureTrailing (l : List Char) : List Char :=
  if l.getLast? = some '/' then l else l ++ ['/']

/-- normalize_folder_path on the underlying character list (src/main.py lines
104-119): empty check, strip, backslash to slash, collapse "//", ensure leading
and trailing slash. -/
def normList (l : List Char) : List Char :=
  if l = [] then ['/']
  else
    ensureTrailing (ensureLeading
      (collapseSlashes ((pyStripList l).map (fun c => if c = '\\' then '/' else c))))

/-- normalize_folder_path from src/main.py. -/
def normalize_folder_path (s : String) : String := String.mk (normList s.data)

/-- USER_QUOTA_BYTES = 10 * 1024 * 1024 (10 MB limit). -/
def USER_QUOTA_BYTES : Nat := 10 * 1024 * 1024

/-- One row of the user_files table. -/
structure FileRecord where
  id : Nat
  filename : String
  filepath : String
  filehash : String
  username : String
  is_reference : Bool
  size : Nat
  folder : String
  is_public : Bool
  share_token : Option String
  download_count : Nat
deriving DecidableEq, Repr

/-- One incoming file of an upload batch, identified by its filename, the
fingerprint of its bytes and its byte length. -/
structure InFile where
  filename : String
  filehash : String
  size : Nat
deriving DecidableEq, Repr

/-- The process state: database rows, committed object paths, staged temporary
paths, the in-memory last_upload_time map, and counters supplying fresh row
ids, uuid4 temp names and uuid4 share tokens. -/
structure State where
  records : List FileRecord
  disk : List String
  staged : List String
  lastUpload : List (String × Rat)
  nextId : Nat
  nextTemp : Nat
  nextToken : Nat
deriving DecidableEq, Repr

/-- get_actual_storage: sum of size over rows of the user with is_reference 0. -/
def get_actual_storage (recs : List FileRecord) (u : String) : Nat :=
  ((recs.filter (fun r => r.username == u && r.is_reference == false)).map (fun r => r.size)).sum

/-- get_user_space_saved: sum of size over rows of the user with is_reference 1. -/
def get_user_space_saved (recs : List FileRecord) (u : String) : Nat :=
  ((recs.filter (fun r => r.username == u && r.is_reference == true)).map (fun r => r.size)).sum

/-- get_original_uploaded: sum of size over all rows of the user. -/
def get_original_uploaded (recs : List FileRecord) (u : String) : Nat :=
  ((recs.filter (fun r => r.username == u)).map (fun r => r.size)).sum

/-- The savings_percent computation of the dashboard route (src/main.py line
220): saved divided by original times 100 when original is positive, else 0. -/
def savings_percent (recs : List FileRecord) (u : String) : Rat :=
  if 0 < get_original_uploaded recs u then
    (get_user_space_saved recs u : Rat) / (get_original_uploaded recs u : Rat) * 100
  else 0

/-- The query predicate filehash == h, username == u, is_reference == 0 used by
the upload route to look for an existing primary row. -/
def isPrimaryFor (u h : String) (r : FileRecord) : Bool :=
  r.filehash == h && r.username == u && r.is_reference == false

/-- .first() on the primary query. -/
def findPrimary (recs : List FileRecord) (u h : String) : Option FileRecord :=
  recs.find? (isPrimaryFor u h)

/-- Temporary staging path: os.path.join(UPLOAD_FOLDER, "temp_" + uuid + "_" +
filename), with the uuid drawn from a fresh counter. -/
def tempName (n : Nat) (filename : String) : String :=
  "uploads/temp_" ++ toString n ++ "_" ++ filename

/-- Final object path: os.path.join(UPLOAD_FOLDER, username + "_" + filehash). -/
def finalPath (u h : String) : String := "uploads/" ++ u ++ "_" ++ h

/-- One entry of the temp_files list built during staging. -/
structure Staged where
  path : String
  filename : String
  filehash : String
  size : Nat
deriving DecidableEq, Repr

/-- Failure schedule for one upload request.  stageWrite i: an OSError is
raised while writing or reading back the i-th file of the batch, after
open(temp_path, "wb") has created the temporary file but before the file is
appended to temp_files.  commitRename j: os.rename raises for the j-th entry of
temp_files (only reachable in the new-primary branch, the only place a rename
happens). -/
inductive FailAt where
  | nofail
  | stageWrite (i : Nat)
  | commitRename (j : Nat)
deriving DecidableEq, Repr

/-- The JSON outcomes of the upload route.  ok carries the per-file results
list of (filename, is-duplicate) pairs. -/
inductive UploadOutcome where
  | noFiles
  | rateLimited
  | quotaExceeded
  | internalError
  | ok (results : List (String × Bool))
deriving DecidableEq, Repr

/-- The cleanup loop: for each temp path, remove it if it exists. -/
def removePaths (d : List String) (ps : List String) : List String :=
  ps.foldl (fun acc p => acc.filter (fun q => q != p)) d

/-- Result of the staging loop of the upload route. -/
structure StageResult where
  stagedFiles : List Staged
  newSize : Nat
  staged : List String
  nextTemp : Nat
  failed : Bool
deriving DecidableEq, Repr

/-- The staging loop (src/main.py lines 263-291): write each file to a fresh
temp path, hash and size it, and add its size to new_original_size when the
user has no existing primary row for its fingerprint.  The database is not
modified here, so every lookup runs against the pre-batch rows. -/
def stageLoop (recs : List FileRecord) (u : String) :
    List InFile → Nat → Nat → List Staged → Nat → List String → FailAt → StageResult
  | [], _, nt, acc, ns, sd, _ => ⟨acc, ns, sd, nt, false⟩
  | f :: rest, i, nt, acc, ns, sd, failAt =>
    if f.filename == "" then stageLoop recs u rest (i + 1) nt acc ns sd failAt
    else
      let tp := tempName nt f.filename
      let sd1 := sd ++ [tp]
      if failAt == FailAt.stageWrite i then ⟨acc, ns, sd1, nt + 1, true⟩
      else
        let ns1 := if (findPrimary recs u f.filehash).isSome then ns else ns + f.size
        stageLoop recs u rest (i + 1) (nt + 1)
          (acc ++ [⟨tp, f.filename, f.filehash, f.size⟩]) ns1 sd1 failAt

/-- Result of the commit loop of the upload route. -/
structure CommitResult where
  records : List FileRecord
  disk : List String
  staged : List String
  results : List (String × Bool)
  nextId : Nat
  failed : Bool
deriving DecidableEq, Repr

/-- A UserFile row as built by the upload route: is_public=0, no share token,
download_count=0. -/
def mkEntry (nid : Nat) (filename filepath filehash username : String)
    (isRef : Bool) (size : Nat) (folder : String) : FileRecord :=
  ⟨nid, filename, filepath, filehash, username, isRef, size, folder, false, none, 0⟩

/-- The commit loop (src/main.py lines 302-342): for each staged file re-check
for an existing primary row of this user; if found, discard the temp file and
insert a duplicate row pointing at the existing filepath, else rename the temp
file to the per-user final path and insert a primary row.  Each iteration
commits its row, so later lookups see earlier insertions. -/
def commitLoop (u folder : String) :
    List Staged → Nat → List FileRecord → List String → List String →
    List (String × Bool) → Nat → FailAt → CommitResult
  | [], _, recs, disk, sd, res, nid, _ => ⟨recs, disk, sd, res, nid, false⟩
  | t :: rest, j, recs, disk, sd, res, nid, failAt =>
    match findPrimary recs u t.filehash with
    | some e =>
      let sd1 := sd.filter (fun q => q != t.path)
      let entry := mkEntry nid t.filename e.filepath t.filehash u true t.size folder
      commitLoop u folder rest (j + 1) (recs ++ [entry]) disk sd1
        (res ++ [(t.filename, true)]) (nid + 1) failAt
    | none =>
      if failAt == FailAt.commitRename j then ⟨recs, disk, sd, res, nid, true⟩
      else
        let fp := finalPath u t.filehash
        let sd1 := sd.filter (fun q => q != t.path)
        let disk1 := if disk.contains fp then disk else disk ++ [fp]
        let entry := mkEntry nid t.filename fp t.filehash u false t.size folder
        commitLoop u folder rest (j + 1) (recs ++ [entry]) disk1 sd1
          (res ++ [(t.filename, false)]) (nid + 1) failAt

/-- last_upload_time lookup (username in last_upload_time). -/
def lookupLast (l : List (String × Rat)) (u : String) : Option Rat :=
  (l.find? (fun p => p.1 == u)).map (fun p => p.2)

/-- last_upload_time[username] = now. -/
def setLast (l : List (String × Rat)) (u : String) (t : Rat) : List (String × Rat) :=
  (u, t) :: l.filter (fun p => p.1 != u)

/-- The rate check of the upload route: username in last_upload_time and
now - last_upload_time[username] < 0.5. -/
def rateBlocked (l : List (String × Rat)) (u : String) (now : Rat) : Bool :=
  match lookupLast l u with
  | some t => decide (now - t < 1 / 2)
  | none => false

/-- State and outcome returned by one upload request. -/
structure UploadResult where
  state : State
  outcome : UploadOutcome
deriving DecidableEq, Repr

/-- The part of the upload route after the empty-batch and rate checks
(src/main.py lines 254-351): folder normalization, quota snapshot, staging
loop, quota gate, commit loop, and the except branch that removes every path
of temp_files still present and returns a 500 outcome.  The caller has already
recorded the request timestamp in s1. -/
def uploadGo (s1 : State) (username : String) (folderRaw : String)
    (files : List InFile) (failAt : FailAt) : UploadResult :=
    let folder := normalize_folder_path folderRaw
    let current_used := get_actual_storage s1.records username
    let st := stageLoop s1.records username files 0 s1.nextTemp [] 0 s1.staged failAt
    if st.failed then
      ⟨{ s1 with
          staged := removePaths st.staged (st.stagedFiles.map (fun t => t.path))
          nextTemp := st.nextTemp }, UploadOutcome.internalError⟩
    else if USER_QUOTA_BYTES < current_used + st.newSize then
      ⟨{ s1 with
          staged := removePaths st.staged (st.stagedFiles.map (fun t => t.path))
          nextTemp := st.nextTemp }, UploadOutcome.quotaExceeded⟩
    else
      let c := commitLoop username folder st.stagedFiles 0 s1.records s1.disk st.staged []
        s1.nextId failAt
      if c.failed then
        ⟨{ s1 with
            records := c.records
            disk := c.disk
            staged := removePaths c.staged (st.stagedFiles.map (fun t => t.path))
            nextId := c.nextId
            nextTemp := st.nextTemp }, UploadOutcome.internalError⟩
      else
        ⟨{ s1 with
            records := c.records
            disk := c.disk
            staged := c.staged
            nextId := c.nextId
            nextTemp := st.nextTemp }, UploadOutcome.ok c.results⟩

/-- The upload route (src/main.py lines 239-351), for an authenticated user:
empty-batch check, rate limit, timestamp update, then uploadGo. -/
def upload (s : State) (username : String) (now : Rat) (folderRaw : String)
    (files : List InFile) (failAt : FailAt) : UploadResult :=
  if files.all (fun f => f.filename == "") then ⟨s, UploadOutcome.noFiles⟩
  else if rateBlocked s.lastUpload username now then ⟨s, UploadOutcome.rateLimited⟩
  else
    uploadGo { s with lastUpload := setLast s.lastUpload username now } username folderRaw
      files failAt

/-- Outcomes of the delete route. -/
inductive DeleteOutcome where
  | notFound
  | ok
deriving DecidableEq, Repr

/-- The count query of the delete route: rows of the user sharing a filehash. -/
def userHashCount (recs : List FileRecord) (u h : String) : Nat :=
  (recs.filter (fun r => r.filehash == h && r.username == u)).length

/-- The delete route (src/main.py lines 506-533): find the row by id and owner,
count the rows of the owner sharing its filehash, delete the row, commit, then
remove the physical file only if this was the last reference, the filepath is
non-empty and the path exists. -/
def delete (s : State) (username : String) (file_id : Nat) : State × DeleteOutcome :=
  match s.records.find? (fun r => r.id == file_id && r.username == username) with
  | none => (s, DeleteOutcome.notFound)
  | some file =>
    let cnt := userHashCount s.records username file.filehash
    let recs := s.records.filter (fun r => r.id != file.id)
    let disk :=
      if cnt == 1 && file.filepath != "" && s.disk.contains file.filepath
      then s.disk.filter (fun q => q != file.filepath) else s.disk
    ({ s with records := recs, disk := disk }, DeleteOutcome.ok)

/-- The toggle_share route (src/main.py lines 403-420): flip is_public of the
owned row and set share_token to a fresh uuid when it becomes public, else to
None. -/
def toggle_share (s : State) (username : String) (file_id : Nat) : State × Bool :=
  match s.records.find? (fun r => r.id == file_id && r.username == username) with
  | none => (s, false)
  | some file =>
    let newPub := !file.is_public
    let newTok : Option String := if newPub then some ("tok-" ++ toString s.nextToken) else none
    let recs := s.records.map (fun r =>
      if r.id == file_id && r.username == username
      then { r with is_public := newPub, share_token := newTok } else r)
    ({ s with records := recs, nextToken := s.nextToken + 1 }, true)

/-- Python str.strip("/"): drop leading and trailing slashes. -/
def stripSlashes (l : List Char) : List Char :=
  ((l.dropWhile (fun c => c = '/')).reverse.dropWhile (fun c => c = '/')).reverse

/-- Python str.split("/"). -/
def splitSlash : List Char → List (List Char)
  | [] => [[]]
  | c :: rest =>
    let r := splitSlash rest
    if c = '/' then [] :: r
    else
      match r with
      | s :: tl => (c :: s) :: tl
      | [] => [[c]]

/-- full_path.strip("/").split("/")[-1] of the create_folder route. -/
def folderDisplayName (full : String) : String :=
  String.mk ((splitSlash (stripSlashes full.data)).getLastD [])

/-- Character-list prefix test. -/
def listPrefixed : List Char → List Char → Bool
  | [], _ => true
  | _ :: _, [] => false
  | c :: cs, d :: ds => c == d && listPrefixed cs ds

/-- The SQL filter UserFile.filename.like(".folder_marker_%"): fourteen literal
characters ".folder_marker", one arbitrary character for the underscore
wildcard, then an arbitrary tail for the percent wildcard; equivalently, the
name starts with ".folder_marker" and has at least fifteen characters. -/
def folderMarkerLike (fn : String) : Bool :=
  listPrefixed ".folder_marker".data fn.data && decide (15 ≤ fn.data.length)

/-- The create_folder route (src/main.py lines 457-504): strip the name,
reject empty and root, skip if a marker row for the folder exists, else insert
a zero-size marker row with empty filepath and filehash "folder_marker". -/
def create_folder (s : State) (username folder_name : String) : State :=
  let name := String.mk (pyStripList folder_name.data)
  if name == "" then s
  else
    let full := normalize_folder_path name
    if full == "/" then s
    else if s.records.any (fun r =>
        r.username == username && r.folder == full && folderMarkerLike r.filename) then s
    else
      let disp := folderDisplayName full
      { s with
        records := s.records ++
          [⟨s.nextId, ".folder_marker_" ++ disp, "", "folder_marker", username,
            false, 0, full, false, none, 0⟩],
        nextId := s.nextId + 1 }

/-- projectedNewBytes: the quantity new_original_size actually accumulated by
the staging loop, namely the sum of the sizes of the batch files (with a
filename) for which the user has no pre-batch primary row, counted once per
file even when several batch files carry the same new fingerprint. -/
def projectedNewBytes (recs : List FileRecord) (u : String) (files : List InFile) : Nat :=
  ((files.filter (fun f => f.filename != "")).map
    (fun f => if (findPrimary recs u f.filehash).isSome then 0 else f.size)).sum

/-- Modelled from the claim wording: the sum of the sizes of the batch files
that would become new primaries for the user, i.e. files with a filename whose
fingerprint has no pre-batch primary row, counted once per distinct
fingerprint (later batch files with the same new fingerprint commit as
duplicates, not primaries). -/
def newPrimaryBytes (recs : List FileRecord) (u : String) (files : List InFile) : Nat :=
  (files.foldl (fun acc f =>
    if f.filename != "" && (findPrimary recs u f.filehash).isNone
        && !(acc.2.contains f.filehash)
    then (acc.1 + f.size, f.filehash :: acc.2) else acc)
    ((0 : Nat), ([] : List String))).1

/-- At most one primary row per (owner, fingerprint) pair: any two distinct
non-duplicate rows differ in owner or fingerprint. -/
def primariesDistinct (recs : List FileRecord) : Prop :=
  List.Pairwise (fun a b => a.username ≠ b.username ∨ a.filehash ≠ b.filehash)
    (recs.filter (fun r => r.is_reference == false))

/-- Every duplicate row has a primary row of the same owner and fingerprint
carrying the same physical location. -/
def dupLink (recs : List FileRecord) : Prop :=
  ∀ r ∈ recs, r.is_reference = true →
    ∃ p ∈ recs, p.is_reference = false ∧ p.username = r.username ∧
      p.filehash = r.filehash ∧ p.filepath = r.filepath

/-- The per-user deduplication invariant of the spec (invariant I1). -/
def dedupInv (recs : List FileRecord) : Prop :=
  primariesDistinct recs ∧ dupLink recs

/-- Number of primary rows of the user for one fingerprint. -/
def primCount (recs : List FileRecord) (u h : String) : Nat :=
  (recs.filter (isPrimaryFor u h)).length

/-- Number of duplicate rows of the user for one fingerprint. -/
def dupCount (recs : List FileRecord) (u h : String) : Nat :=
  (recs.filter (fun r => r.filehash == h && r.username == u && r.is_reference == true)).length

/-- share_token is present exactly on public rows. -/
def tokenConsistent (recs : List FileRecord) : Prop :=
  ∀ r ∈ recs, r.share_token.isSome = r.is_public

instance (recs : List FileRecord) : Decidable (primariesDistinct recs) := by
  unfold primariesDistinct; infer_instance

instance (recs : List FileRecord) : Decidable (dupLink recs) := by
  unfold dupLink; infer_instance

instance (recs : List FileRecord) : Decidable (dedupInv recs) := by
  unfold dedupInv; infer_instance

instance (recs : List FileRecord) : Decidable (tokenConsistent recs) := by
  unfold tokenConsistent; infer_instance

/-- One upload request of a batch sequence. -/
structure Batch where
  username : String
  now : Rat
  folder : String
  files : List InFile
  failAt : FailAt
deriving DecidableEq, Repr

/-- Run a sequence of upload requests, threading the state. -/
def uploadSeq (s : State) : List Batch → State
  | [] => s
  | b :: rest => uploadSeq (upload s b.username b.now b.folder b.files b.failAt).state rest

/-- Whether every request of the sequence returns the per-file results outcome. -/
def uploadSeqOk (s : State) : List Batch → Bool
  | [] => true
  | b :: rest =>
    match (upload s b.username b.now b.folder b.files b.failAt).outcome with
    | UploadOutcome.ok _ => uploadSeqOk (upload s b.username b.now b.folder b.files b.failAt).state rest
    | _ => false

/-- Number of files of one fingerprint (with a filename) in a batch. -/
def batchK (files : List InFile) (h : String) : Nat :=
  (files.filter (fun f => f.filename != "" && f.filehash == h)).length

/-- Number of files of one fingerprint uploaded by one user across a sequence. -/
def seqK (bs : List Batch) (u h : String) : Nat :=
  (bs.map (fun b => if b.username == u then batchK b.files h else 0)).sum

/-- Whether an outcome is the per-file results outcome. -/
def isOk : UploadOutcome → Bool
  | UploadOutcome.ok _ => true
  | _ => false

/-- Rows for (u2, h) added by committing a staged list under user u. -/
def kEff (u u2 : String) (staged : List Staged) (h : String) : Nat :=
  if u == u2 then (staged.filter (fun t => t.filehash == h)).length else 0

/-- Rows for (u2, h) added by an accepted batch of files under user u. -/
def fEff (u u2 : String) (files : List InFile) (h : String) : Nat :=
  if u == u2 then batchK files h else 0

/-- The empty process state: fresh database, empty uploads directory. -/
def initState : State := ⟨[], [], [], [], 1, 0, 0⟩

/-- Sample primary row used by concrete witnesses. -/
def recA : FileRecord := ⟨1, "a.txt", "uploads/u_h1", "h1", "u", false, 5, "/", false, none, 0⟩

/-- Sample duplicate row of the same content, used by concrete witnesses. -/
def recB : FileRecord := ⟨2, "b.txt", "uploads/u_h1", "h1", "u", true, 5, "/", false, none, 0⟩

/-- Sample state with one primary row whose object is on disk. -/
def stateA : State := ⟨[recA], ["uploads/u_h1"], [], [], 3, 0, 0⟩

/-- Sample folder-marker row as inserted by create_folder. -/
def markerRec : FileRecord :=
  ⟨1, ".folder_marker_docs", "", "folder_marker", "u", false, 0, "/docs/", false, none, 0⟩

/-- Sample state with one folder-marker row and one unrelated object on disk. -/
def stateB : State := ⟨[markerRec], ["uploads/u_h1"], [], [], 2, 0, 0⟩

/-- Sample state whose user has an upload timestamp of 0 recorded. -/
def stateC : State := ⟨[], [], [], [("u", 0)], 1, 0, 0⟩

/-- Sample batch: two files with identical new content of 5 bytes each. -/
def batchW : Batch := ⟨"u", 0, "/", [⟨"a.txt", "h1", 5⟩, ⟨"b.txt", "h1", 5⟩], FailAt.nofail⟩

/-- Two batch files with identical new content of 6 MiB each: together they
stay under the 10 MB quota as one primary, but the staging projection counts
both. -/
def cexFiles : List InFile := [⟨"a.bin", "h1", 6291456⟩, ⟨"b.bin", "h1", 6291456⟩]

/-! ### Lemmas about folder-path normalization -/

theorem replDS_length_le : (l : List Char) → (replDS l).length ≤ l.length
  | [] => by simp [replDS]
  | [c] => by simp [replDS]
  | c1 :: c2 :: rest => by
    by_cases h : c1 = '/' ∧ c2 = '/'
    · have ih := replDS_length_le rest
      simp only [replDS, if_pos h, List.length_cons]
      omega
    · have ih := replDS_length_le (c2 :: rest)
      simp only [replDS, if_neg h, List.length_cons]
      simp only [List.length_cons] at ih
      omega

theorem replDS_length_lt : (l : List Char) → hasDS l = true → (replDS l).length < l.length
  | [], h => by simp [hasDS] at h
  | [c], h => by simp [hasDS] at h
  | c1 :: c2 :: rest, h => by
    by_cases hc : c1 = '/' ∧ c2 = '/'
    · have le := replDS_length_le rest
      simp only [replDS, if_pos hc, List.length_cons]
      omega
    · have h2 : hasDS (c2 :: rest) = true := by
        simp only [hasDS, Bool.or_eq_true, Bool.and_eq_true, decide_eq_true_eq] at h
        rcases h with ⟨ha, hb⟩ | hb
        · exact absurd ⟨ha, hb⟩ hc
        · exact hb
      have ih := replDS_length_lt (c2 :: rest) h2
      simp only [replDS, if_neg hc, List.length_cons]
      simp only [List.length_cons] at ih
      omega

theorem collapseDS_noDS : ∀ (fuel : Nat) (l : List Char), l.length ≤ fuel →
    hasDS (collapseDS fuel l) = false
  | 0, l, h => by
    have hl : l = [] := List.eq_nil_of_length_eq_zero (Nat.le_zero.mp h)
    subst hl; rfl
  | fuel + 1, l, h => by
    rw [collapseDS]
    by_cases hd : hasDS l = true
    · rw [if_pos hd]
      exact collapseDS_noDS fuel (replDS l) (by have := replDS_length_lt l hd; omega)
    · rw [if_neg hd]
      simp only [Bool.not_eq_true] at hd
      exact hd

theorem collapseSlashes_noDS (l : List Char) : hasDS (collapseSlashes l) = false :=
  collapseDS_noDS l.length l (le_refl _)

theorem hasDS_cons_slash (l : List Char) (h : hasDS l = false) (hh : l.head? ≠ some '/') :
    hasDS ('/' :: l) = false := by
  cases l with
  | nil => rfl
  | cons c rest =>
    have hc : ¬(c = '/') := fun e => hh (by simp [e])
    simp only [hasDS] at h ⊢
    simp [hc, h]

theorem hasDS_concat_slash : ∀ (l : List Char), hasDS l = false → l.getLast? ≠ some '/' →
    hasDS (l ++ ['/']) = false
  | [], _, _ => rfl
  | [c], _, hl => by
    have hc : ¬(c = '/') := fun e => hl (by simp [e])
    simp [hasDS, hc]
  | c1 :: c2 :: rest, h, hl => by
    simp only [hasDS, Bool.or_eq_false_iff] at h
    have hl2 : (c2 :: rest).getLast? ≠ some '/' := by
      rw [List.getLast?_cons_cons] at hl; exact hl
    have ih := hasDS_concat_slash (c2 :: rest) h.2 hl2
    simp only [List.cons_append]
    simp only [List.cons_append] at ih
    simp only [hasDS, Bool.or_eq_false_iff]
    exact ⟨h.1, ih⟩

theorem ensureLeading_head (l : List Char) : (ensureLeading l).head? = some '/' := by
  unfold ensureLeading
  by_cases h : l.head? = some '/'
  · rw [if_pos h]; exact h
  · rw [if_neg h]; rfl

theorem ensureLeading_noDS (l : List Char) (h : hasDS l = false) :
    hasDS (ensureLeading l) = false := by
  unfold ensureLeading
  by_cases hh : l.head? = some '/'
  · rw [if_pos hh]; exact h
  · rw [if_neg hh]; exact hasDS_cons_slash l h hh

theorem ensureTrailing_getLast (l : List Char) : (ensureTrailing l).getLast? = some '/' := by
  unfold ensureTrailing
  by_cases h : l.getLast? = some '/'
  · rw [if_pos h]; exact h
  · rw [if_neg h]; exact List.getLast?_concat l

theorem ensureTrailing_noDS (l : List Char) (h : hasDS l = false) :
    hasDS (ensureTrailing l) = false := by
  unfold ensureTrailing
  by_cases hh : l.getLast? = some '/'
  · rw [if_pos hh]; exact h
  · rw [if_neg hh]; exact hasDS_concat_slash l h hh

theorem ensureTrailing_head (l : List Char) (h : l.head? = some '/') :
    (ensureTrailing l).head? = some '/' := by
  unfold ensureTrailing
  by_cases hh : l.getLast? = some '/'
  · rw [if_pos hh]; exact h
  · rw [if_neg hh]
    cases l with
    | nil => simp at h
    | cons c rest => simpa using h

theorem normList_spec (l : List Char) :
    (normList l).head? = some '/' ∧ (normList l).getLast? = some '/' ∧
    hasDS (normList l) = false := by
  unfold normList
  by_cases h0 : l = []
  · rw [if_pos h0]; exact ⟨rfl, rfl, rfl⟩
  · rw [if_neg h0]
    have h2 := collapseSlashes_noDS ((pyStripList l).map (fun c => if c = '\\' then '/' else c))
    refine ⟨?_, ensureTrailing_getLast _, ?_⟩
    · exact ensureTrailing_head _ (ensureLeading_head _)
    · exact ensureTrailing_noDS _ (ensureLeading_noDS _ h2)

theorem normList_whitespace (l : List Char) (h : ∀ c ∈ l, pyWhitespace c = true) :
    normList l = ['/'] := by
  by_cases h0 : l = []
  · simp [normList, h0]
  · have hs : pyStripList l = [] := by
      unfold pyStripList
      have h1 : l.dropWhile pyWhitespace = [] :=
        List.dropWhile_eq_nil_iff.mpr (fun x hx => h x hx)
      rw [h1]; rfl
    unfold normList
    rw [if_neg h0, hs]
    rfl

/-- C9: for every input string, normalize_folder_path returns a string that
begins with the separator, ends with the separator and contains no repeated
separator; empty or whitespace-only input normalizes to the root path. -/
theorem normalize_folder_path_spec (s : String) :
    (normalize_folder_path s).data.head? = some '/' ∧
    (normalize_folder_path s).data.getLast? = some '/' ∧
    hasDS (normalize_folder_path s).data = false ∧
    ((∀ c ∈ s.data, pyWhitespace c = true) → normalize_folder_path s = "/") := by
  have h := normList_spec s.data
  refine ⟨h.1, h.2.1, h.2.2, fun hw => ?_⟩
  show String.mk (normList s.data) = "/"
  rw [normList_whitespace s.data hw]

/-- Witness for C9: a whitespace-only folder name normalizes to the root path. -/
theorem normalize_folder_path_spec_witness : normalize_folder_path " " = "/" :=
  (normalize_folder_path_spec " ").2.2.2 (by decide)

/-! ### Quota ledger accounting -/

/-- C3: for every database and user, the bytes originally uploaded equal the
actual storage plus the space saved, where the three quantities are the sums
computed by get_original_uploaded, get_actual_storage and get_user_space_saved. -/
theorem accounting_identity (recs : List FileRecord) (u : String) :
    get_original_uploaded recs u = get_actual_storage recs u + get_user_space_saved recs u := by
  induction recs with
  | nil => rfl
  | cons r rest ih =>
    simp only [get_original_uploaded, get_actual_storage, get_user_space_saved,
      List.filter_cons] at ih ⊢
    cases hu : (r.username == u) <;> cases href : r.is_reference <;>
      simp [hu, href, List.sum_cons] at ih ⊢ <;> omega

/-- C6: savings_percent equals saved over original times 100 when the user has
uploaded anything, is 0 when original is 0, and the division is never taken
with a zero divisor. -/
theorem savings_percent_spec (recs : List FileRecord) (u : String) :
    (0 < get_original_uploaded recs u →
      savings_percent recs u =
        (get_user_space_saved recs u : Rat) / (get_original_uploaded recs u : Rat) * 100 ∧
      (get_original_uploaded recs u : Rat) ≠ 0) ∧
    (get_original_uploaded recs u = 0 → savings_percent recs u = 0) := by
  constructor
  · intro h
    refine ⟨by rw [savings_percent, if_pos h], ?_⟩
    have h0 : (0 : Rat) < (get_original_uploaded recs u : Rat) := by exact_mod_cast h
    exact ne_of_gt h0
  · intro h
    rw [savings_percent, if_neg]
    omega

/-- Witness for C6: one 5-byte primary and one 5-byte duplicate give a savings
percentage of 50. -/
theorem savings_percent_spec_witness : savings_percent [recA, recB] "u" = 50 := by
  have h := (savings_percent_spec [recA, recB] "u").1 (by decide)
  have hs : get_user_space_saved [recA, recB] "u" = 5 := by decide
  have ho : get_original_uploaded [recA, recB] "u" = 10 := by decide
  rw [h.1, hs, ho]
  norm_num

/-! ### List and state bookkeeping lemmas -/

theorem filter_bne_of_not_mem (l : List String) (a : String) (h : a ∉ l) :
    l.filter (fun q => q != a) = l := by
  apply List.filter_eq_self.mpr
  intro b hb
  simp only [bne_iff_ne, ne_eq, decide_eq_true_eq]
  intro hba
  exact h (hba ▸ hb)

theorem lookupLast_setLast (l : List (String × Rat)) (u : String) (t : Rat) :
    lookupLast (setLast l u t) u = some t := by
  simp [lookupLast, setLast]

theorem uploadGo_lastUpload (s1 : State) (u f : String) (fs : List InFile) (fa : FailAt) :
    (uploadGo s1 u f fs fa).state.lastUpload = s1.lastUpload := by
  simp only [uploadGo]
  split
  · rfl
  · split
    · rfl
    · split <;> rfl

/-! ### Reference reaper -/

/-- C5: the delete route removes the metadata row; the physical object is
removed from disk exactly when the pre-deletion count of the owner's rows
sharing the fingerprint is 1, and the disk is untouched when that count is at
least 2.  The hypothesis that the empty string is not a disk path reflects
that every committed object lives at a real path. -/
theorem delete_disk_eq (s : State) (u : String) (fid : Nat) (file : FileRecord)
    (hfind : s.records.find? (fun r => r.id == fid && r.username == u) = some file) :
    (delete s u fid).1.disk =
      if (userHashCount s.records u file.filehash == 1 && file.filepath != ""
          && s.disk.contains file.filepath) = true
      then s.disk.filter (fun q => q != file.filepath) else s.disk := by
  simp only [delete, hfind]

theorem reaper_refcount (s : State) (u : String) (fid : Nat) (file : FileRecord)
    (hfind : s.records.find? (fun r => r.id == fid && r.username == u) = some file)
    (hwf : "" ∉ s.disk) :
    (delete s u fid).2 = DeleteOutcome.ok ∧
    (delete s u fid).1.records = s.records.filter (fun r => r.id != file.id) ∧
    (userHashCount s.records u file.filehash = 1 →
      (delete s u fid).1.disk = s.disk.filter (fun q => q != file.filepath) ∧
      file.filepath ∉ (delete s u fid).1.disk) ∧
    (2 ≤ userHashCount s.records u file.filehash → (delete s u fid).1.disk = s.disk) := by
  refine ⟨by simp only [delete, hfind], by simp only [delete, hfind], ?_, ?_⟩
  · intro hc
    rw [delete_disk_eq s u fid file hfind]
    by_cases hp : file.filepath = ""
    · have hcond : (userHashCount s.records u file.filehash == 1 && file.filepath != ""
          && s.disk.contains file.filepath) = false := by
        simp [hp]
      rw [hcond, if_neg (by simp)]
      constructor
      · rw [hp]
        exact (filter_bne_of_not_mem s.disk "" hwf).symm
      · rw [hp]; exact hwf
    · by_cases hd : file.filepath ∈ s.disk
      · have hcont : s.disk.contains file.filepath = true := by simpa using hd
        have hcond : (userHashCount s.records u file.filehash == 1 && file.filepath != ""
            && s.disk.contains file.filepath) = true := by
          simp [hc, hp, hcont, hd]
        rw [hcond, if_pos rfl]
        refine ⟨rfl, ?_⟩
        intro hmem
        have := List.of_mem_filter hmem
        simp at this
      · have hcont : s.disk.contains file.filepath = false := by simpa using hd
        have hcond : (userHashCount s.records u file.filehash == 1 && file.filepath != ""
            && s.disk.contains file.filepath) = false := by
          rw [hcont, Bool.and_false]
        rw [hcond, if_neg (by simp)]
        exact ⟨(filter_bne_of_not_mem s.disk file.filepath hd).symm, hd⟩
  · intro hc
    rw [delete_disk_eq s u fid file hfind]
    have hcond : (userHashCount s.records u file.filehash == 1 && file.filepath != ""
        && s.disk.contains file.filepath) = false := by
      have h1 : (userHashCount s.records u file.filehash == 1) = false := by
        simp only [beq_eq_false_iff_ne, ne_eq]
        omega
      simp [h1]
    rw [hcond, if_neg (by simp)]

/-- Witness for C5: deleting the sole row referencing an object removes both
the row and the object. -/
theorem reaper_refcount_witness :
    (delete stateA "u" 1).1.disk = [] ∧ (delete stateA "u" 1).1.records = [] := by
  have h := reaper_refcount stateA "u" 1 recA (by decide) (by decide)
  have hc : userHashCount stateA.records "u" recA.filehash = 1 := by decide
  constructor
  · rw [(h.2.2.1 hc).1]; decide
  · rw [h.2.1]; decide

/-! ### Rate limiting -/

/-- C7: a non-empty batch arriving less than half a second after the last
batch of the same user that passed the rate check is rejected wholesale with
the rate-limit outcome and a completely unchanged state; a batch that gets
past the rate check arrives at least half a second after the recorded
timestamp; and any batch that passes both checks records the new timestamp. -/
theorem rate_limit_window (s : State) (u : String) (now t : Rat) (folder : String)
    (files : List InFile) (failAt : FailAt)
    (hne : files.all (fun f => f.filename == "") = false)
    (hlast : lookupLast s.lastUpload u = some t) :
    (now - t < 1 / 2 → upload s u now folder files failAt = ⟨s, UploadOutcome.rateLimited⟩) ∧
    ((upload s u now folder files failAt).outcome ≠ UploadOutcome.rateLimited →
      1 / 2 ≤ now - t) ∧
    ((upload s u now folder files failAt).outcome ≠ UploadOutcome.rateLimited →
      lookupLast (upload s u now folder files failAt).state.lastUpload u = some now) := by
  have hmain : now - t < 1 / 2 →
      upload s u now folder files failAt = ⟨s, UploadOutcome.rateLimited⟩ := by
    intro h
    have h2 : rateBlocked s.lastUpload u now = true := by
      rw [rateBlocked, hlast]
      simpa using h
    simp [upload, hne, h2]
  refine ⟨hmain, ?_, ?_⟩
  · intro hout
    by_contra hc
    push_neg at hc
    exact hout (by rw [hmain hc])
  · intro hout
    cases hrb : rateBlocked s.lastUpload u now with
    | true =>
      exfalso
      apply hout
      simp [upload, hne, hrb]
    | false =>
      have hu : upload s u now folder files failAt =
          uploadGo { s with lastUpload := setLast s.lastUpload u now } u folder files failAt := by
        simp [upload, hne, hrb]
      rw [hu, uploadGo_lastUpload]
      exact lookupLast_setLast s.lastUpload u now

/-- Witness for C7: with a timestamp of 0 recorded, a batch at time 1/4 second
is rejected with the rate-limit outcome and an unchanged state. -/
theorem rate_limit_window_witness :
    upload stateC "u" (1 / 4) "/" [⟨"a.txt", "h1", 5⟩] FailAt.nofail =
      ⟨stateC, UploadOutcome.rateLimited⟩ := by
  have hl : lookupLast stateC.lastUpload "u" = some 0 := by
    simp [lookupLast, stateC]
  have h := rate_limit_window stateC "u" (1 / 4) 0 "/" [⟨"a.txt", "h1", 5⟩] FailAt.nofail
    (by decide) hl
  exact h.1 (by norm_num)

/-! ### Folder markers -/

theorem agg_append_zero (rs : List FileRecord) (m : FileRecord) (p : FileRecord → Bool)
    (h : m.size = 0) :
    (((rs ++ [m]).filter p).map (fun r => r.size)).sum = ((rs.filter p).map (fun r => r.size)).sum := by
  rw [List.filter_append]
  cases hp : p m with
  | true => simp [List.filter_cons, hp, h]
  | false => simp [List.filter_cons, hp]

/-- C10: creating a folder inserts at most a zero-size marker row with empty
filepath, so all three storage aggregates are unchanged for every user, and
deleting a row with empty filepath never removes anything from disk. -/
theorem folder_marker_frame (s : State) (u u2 fname : String) (fid : Nat) (file : FileRecord) :
    get_actual_storage (create_folder s u fname).records u2 = get_actual_storage s.records u2 ∧
    get_original_uploaded (create_folder s u fname).records u2 =
      get_original_uploaded s.records u2 ∧
    get_user_space_saved (create_folder s u fname).records u2 =
      get_user_space_saved s.records u2 ∧
    (∀ r ∈ (create_folder s u fname).records, r ∈ s.records ∨
      (r.filepath = "" ∧ r.is_reference = false ∧ r.size = 0)) ∧
    (s.records.find? (fun r => r.id == fid && r.username == u) = some file →
      file.filepath = "" → (delete s u fid).1.disk = s.disk) := by
  have hdel : s.records.find? (fun r => r.id == fid && r.username == u) = some file →
      file.filepath = "" → (delete s u fid).1.disk = s.disk := by
    intro hfind hfp
    rw [delete_disk_eq s u fid file hfind]
    have hcond : (userHashCount s.records u file.filehash == 1 && file.filepath != ""
        && s.disk.contains file.filepath) = false := by
      simp [hfp]
    rw [hcond, if_neg (by simp)]
  have hrec : create_folder s u fname = s ∨
      (create_folder s u fname).records = s.records ++
        [⟨s.nextId, ".folder_marker_" ++ folderDisplayName (normalize_folder_path
          (String.mk (pyStripList fname.data))), "", "folder_marker", u,
          false, 0, normalize_folder_path (String.mk (pyStripList fname.data)), false, none, 0⟩] := by
    rw [create_folder]
    by_cases h1 : (String.mk (pyStripList fname.data) == "") = true
    · rw [if_pos h1]; exact Or.inl rfl
    · rw [if_neg h1]
      by_cases h2 : (normalize_folder_path (String.mk (pyStripList fname.data)) == "/") = true
      · rw [if_pos h2]; exact Or.inl rfl
      · rw [if_neg h2]
        by_cases h3 : (s.records.any (fun r => r.username == u
            && r.folder == normalize_folder_path (String.mk (pyStripList fname.data))
            && folderMarkerLike r.filename)) = true
        · rw [if_pos h3]; exact Or.inl rfl
        · rw [if_neg h3]; exact Or.inr rfl
  rcases hrec with heq | happ
  · rw [heq]
    exact ⟨rfl, rfl, rfl, fun r hr => Or.inl hr, hdel⟩
  · rw [happ]
    refine ⟨agg_append_zero _ _ _ rfl, agg_append_zero _ _ _ rfl, agg_append_zero _ _ _ rfl,
      ?_, hdel⟩
    intro r hr
    rcases List.mem_append.mp hr with hl | hr1
    · exact Or.inl hl
    · right
      have : r = ⟨s.nextId, ".folder_marker_" ++ folderDisplayName (normalize_folder_path
          (String.mk (pyStripList fname.data))), "", "folder_marker", u,
          false, 0, normalize_folder_path (String.mk (pyStripList fname.data)),
          false, none, 0⟩ := by
        simpa using hr1
      rw [this]
      exact ⟨rfl, rfl, rfl⟩

/-- Witness for C10: creating a folder leaves actual storage at 0, and
deleting the marker row leaves the disk unchanged. -/
theorem folder_marker_frame_witness :
    get_actual_storage (create_folder stateB "u" "docs").records "u" = 0 ∧
    (delete stateB "u" 1).1.disk = ["uploads/u_h1"] := by
  have h := folder_marker_frame stateB "u" "u" "docs" 1 markerRec
  constructor
  · rw [h.1]; decide
  · rw [h.2.2.2.2 (by decide) (by decide)]; decide

/-! ### Counting and deduplication-invariant lemmas -/

theorem findPrimary_none_forall (recs : List FileRecord) (u h : String)
    (hf : findPrimary recs u h = none) : ∀ r ∈ recs, isPrimaryFor u h r = false := by
  intro r hr
  have := List.find?_eq_none.mp hf r hr
  simpa using this

theorem findPrimary_some_mem (recs : List FileRecord) (u h : String) (e : FileRecord)
    (hf : findPrimary recs u h = some e) :
    e ∈ recs ∧ isPrimaryFor u h e = true :=
  ⟨List.mem_of_find?_eq_some hf, List.find?_some hf⟩

theorem isPrimaryFor_spec (u h : String) (r : FileRecord) (hp : isPrimaryFor u h r = true) :
    r.filehash = h ∧ r.username = u ∧ r.is_reference = false := by
  simp only [isPrimaryFor, Bool.and_eq_true, beq_iff_eq] at hp
  exact ⟨hp.1.1, hp.1.2, by simpa using hp.2⟩

theorem primCount_zero_of_none (recs : List FileRecord) (u h : String)
    (hf : findPrimary recs u h = none) : primCount recs u h = 0 := by
  unfold primCount
  rw [List.length_eq_zero, List.filter_eq_nil_iff]
  intro a ha
  simp [findPrimary_none_forall recs u h hf a ha]

theorem primCount_pos_of_some (recs : List FileRecord) (u h : String) (e : FileRecord)
    (hf : findPrimary recs u h = some e) : 0 < primCount recs u h := by
  obtain ⟨hm, hp⟩ := findPrimary_some_mem recs u h e hf
  have hmem : e ∈ recs.filter (isPrimaryFor u h) := List.mem_filter.mpr ⟨hm, hp⟩
  unfold primCount
  exact List.length_pos.mpr (fun hnil => by simp [hnil] at hmem)

theorem userHashCount_snoc (recs : List FileRecord) (e : FileRecord) (u h : String) :
    userHashCount (recs ++ [e]) u h =
      userHashCount recs u h + (if (e.filehash == h && e.username == u) = true then 1 else 0) := by
  unfold userHashCount
  rw [List.filter_append, List.length_append]
  congr 1
  by_cases hp : (e.filehash == h && e.username == u) = true
  · simp [List.filter_cons, hp]
  · simp [List.filter_cons, hp]

theorem primCount_snoc (recs : List FileRecord) (e : FileRecord) (u h : String) :
    primCount (recs ++ [e]) u h =
      primCount recs u h + (if isPrimaryFor u h e = true then 1 else 0) := by
  unfold primCount
  rw [List.filter_append, List.length_append]
  congr 1
  by_cases hp : isPrimaryFor u h e = true
  · simp [List.filter_cons, hp]
  · simp [List.filter_cons, hp]

theorem count_split (recs : List FileRecord) (u h : String) :
    userHashCount recs u h = primCount recs u h + dupCount recs u h := by
  induction recs with
  | nil => rfl
  | cons r rest ih =>
    unfold userHashCount primCount dupCount isPrimaryFor at ih ⊢
    rw [List.filter_cons, List.filter_cons, List.filter_cons]
    cases h1 : (r.filehash == h) <;> cases h2 : (r.username == u) <;> cases h3 : r.is_reference <;>
      simp [h1, h2, h3] at ih ⊢ <;> omega

theorem length_filter_le_one_of_pairwise (l : List FileRecord)
    (R : FileRecord → FileRecord → Prop) (pm : FileRecord → Bool)
    (hR : List.Pairwise R l) (hcon : ∀ a b, pm a = true → pm b = true → R a b → False) :
    (l.filter pm).length ≤ 1 := by
  induction l with
  | nil => simp
  | cons x xs ih =>
    have hx := List.pairwise_cons.mp hR
    rw [List.filter_cons]
    by_cases hpx : pm x = true
    · rw [if_pos hpx]
      have hnil : xs.filter pm = [] := by
        rw [List.filter_eq_nil_iff]
        intro y hy hpy
        exact hcon x y hpx hpy (hx.1 y hy)
      simp [hnil]
    · rw [if_neg hpx]
      exact ih hx.2

theorem primCount_le_one (recs : List FileRecord) (hpd : primariesDistinct recs) (u h : String) :
    primCount recs u h ≤ 1 := by
  have heq : recs.filter (isPrimaryFor u h) =
      (recs.filter (fun r => r.is_reference == false)).filter
        (fun r => r.filehash == h && r.username == u) := by
    rw [List.filter_filter]
    apply List.filter_congr
    intro r _
    cases hb1 : (r.filehash == h) <;> cases hb2 : (r.username == u) <;>
      cases hb3 : r.is_reference <;> simp [isPrimaryFor, hb1, hb2, hb3]
  unfold primCount
  rw [heq]
  apply length_filter_le_one_of_pairwise _ _ _ hpd
  intro a b hpa hpb hr
  simp only [Bool.and_eq_true, beq_iff_eq] at hpa hpb
  rcases hr with hne | hne
  · exact hne (hpa.2.trans hpb.2.symm)
  · exact hne (hpa.1.trans hpb.1.symm)

theorem primariesDistinct_snoc_ref (recs : List FileRecord) (e : FileRecord)
    (he : e.is_reference = true) (h : primariesDistinct recs) :
    primariesDistinct (recs ++ [e]) := by
  unfold primariesDistinct at h ⊢
  rw [List.filter_append]
  have hnil : [e].filter (fun r => r.is_reference == false) = [] := by simp [he]
  rw [hnil, List.append_nil]
  exact h

theorem primariesDistinct_snoc_prim (recs : List FileRecord) (e : FileRecord)
    (hno : ∀ a ∈ recs, isPrimaryFor e.username e.filehash a = false)
    (h : primariesDistinct recs) : primariesDistinct (recs ++ [e]) := by
  unfold primariesDistinct at h ⊢
  rw [List.filter_append]
  apply List.pairwise_append.mpr
  refine ⟨h, ?_, ?_⟩
  · cases he : e.is_reference <;> simp [he]
  · intro a ha b hb
    have hb1 : b = e := by
      rcases List.mem_filter.mp hb with ⟨hb2, _⟩
      simpa using hb2
    subst hb1
    rcases List.mem_filter.mp ha with ⟨ham, haf⟩
    by_contra hcon
    push_neg at hcon
    obtain ⟨h1, h2⟩ := hcon
    have haf2 : a.is_reference = false := by simpa using haf
    have hprim : isPrimaryFor b.username b.filehash a = true := by
      simp [isPrimaryFor, h1, h2, haf2]
    simp [hno a ham] at hprim

theorem dupLink_snoc (recs : List FileRecord) (e : FileRecord) (h : dupLink recs)
    (he : e.is_reference = true → ∃ p ∈ recs, p.is_reference = false ∧
      p.username = e.username ∧ p.filehash = e.filehash ∧ p.filepath = e.filepath) :
    dupLink (recs ++ [e]) := by
  intro r hr href
  rcases List.mem_append.mp hr with hm | hm
  · obtain ⟨p, hp, hprops⟩ := h r hm href
    exact ⟨p, List.mem_append_left _ hp, hprops⟩
  · have hre : r = e := by simpa using hm
    subst hre
    obtain ⟨p, hp, hprops⟩ := he href
    exact ⟨p, List.mem_append_left _ hp, hprops⟩

theorem tokenConsistent_snoc (recs : List FileRecord) (e : FileRecord)
    (h : tokenConsistent recs) (he : e.share_token.isSome = e.is_public) :
    tokenConsistent (recs ++ [e]) := by
  intro r hr
  rcases List.mem_append.mp hr with hm | hm
  · exact h r hm
  · have : r = e := by simpa using hm
    rw [this]; exact he

theorem kEff_nil (u u2 h : String) : kEff u u2 [] h = 0 := by
  simp [kEff]

theorem kEff_cons (u u2 : String) (t : Staged) (rest : List Staged) (h : String) :
    kEff u u2 (t :: rest) h =
      (if (t.filehash == h && u == u2) = true then 1 else 0) + kEff u u2 rest h := by
  by_cases hu : (u == u2) = true <;> by_cases hth : (t.filehash == h) = true <;>
    simp [kEff, List.filter_cons, hu, hth] <;> omega

/-! ### Commit-loop lemmas -/

theorem commit_nofail (u folder : String) (staged : List Staged) : ∀ (j : Nat)
    (recs : List FileRecord) (disk sd : List String) (res : List (String × Bool)) (nid : Nat),
    (commitLoop u folder staged j recs disk sd res nid FailAt.nofail).failed = false := by
  induction staged with
  | nil => intro j recs disk sd res nid; rfl
  | cons t rest ih =>
    intro j recs disk sd res nid
    cases hf : findPrimary recs u t.filehash with
    | some e =>
      simp only [commitLoop, hf]
      exact ih _ _ _ _ _ _
    | none =>
      simp only [commitLoop, hf]
      rw [show (FailAt.nofail == FailAt.commitRename j) = false from rfl]
      simp only [Bool.false_eq_true, if_false]
      exact ih _ _ _ _ _ _

theorem commit_inv (u folder : String) (staged : List Staged) : ∀ (j : Nat)
    (recs : List FileRecord) (disk sd : List String) (res : List (String × Bool)) (nid : Nat)
    (failAt : FailAt), dedupInv recs →
    dedupInv (commitLoop u folder staged j recs disk sd res nid failAt).records := by
  induction staged with
  | nil => intro _ recs _ _ _ _ _ h; exact h
  | cons t rest ih =>
    intro j recs disk sd res nid failAt hinv
    cases hf : findPrimary recs u t.filehash with
    | some e =>
      obtain ⟨hm, hp⟩ := findPrimary_some_mem recs u t.filehash e hf
      obtain ⟨hph, hpu, hpr⟩ := isPrimaryFor_spec u t.filehash e hp
      simp only [commitLoop, hf]
      apply ih
      constructor
      · exact primariesDistinct_snoc_ref recs _ rfl hinv.1
      · apply dupLink_snoc recs _ hinv.2
        intro _
        exact ⟨e, hm, hpr, by simp [mkEntry, hpu], by simp [mkEntry, hph], by simp [mkEntry]⟩
    | none =>
      simp only [commitLoop, hf]
      by_cases hj : (failAt == FailAt.commitRename j) = true
      · rw [if_pos hj]
        exact hinv
      · rw [if_neg hj]
        apply ih
        constructor
        · exact primariesDistinct_snoc_prim recs _
            (findPrimary_none_forall recs u t.filehash hf) hinv.1
        · apply dupLink_snoc recs _ hinv.2
          intro habs
          simp [mkEntry] at habs

theorem commit_token (u folder : String) (staged : List Staged) : ∀ (j : Nat)
    (recs : List FileRecord) (disk sd : List String) (res : List (String × Bool)) (nid : Nat)
    (failAt : FailAt), tokenConsistent recs →
    tokenConsistent (commitLoop u folder staged j recs disk sd res nid failAt).records := by
  induction staged with
  | nil => intro _ recs _ _ _ _ _ h; exact h
  | cons t rest ih =>
    intro j recs disk sd res nid failAt htc
    cases hf : findPrimary recs u t.filehash with
    | some e =>
      simp only [commitLoop, hf]
      exact ih _ _ _ _ _ _ _ (tokenConsistent_snoc recs _ htc (by simp [mkEntry]))
    | none =>
      simp only [commitLoop, hf]
      by_cases hj : (failAt == FailAt.commitRename j) = true
      · rw [if_pos hj]; exact htc
      · rw [if_neg hj]
        exact ih _ _ _ _ _ _ _ (tokenConsistent_snoc recs _ htc (by simp [mkEntry]))

theorem commit_counts (u folder u2 h : String) (staged : List Staged) : ∀ (j : Nat)
    (recs : List FileRecord) (disk sd : List String) (res : List (String × Bool)) (nid : Nat)
    (failAt : FailAt),
    primCount recs u2 h ≤ 1 →
    (commitLoop u folder staged j recs disk sd res nid failAt).failed = false →
    userHashCount (commitLoop u folder staged j recs disk sd res nid failAt).records u2 h =
      userHashCount recs u2 h + kEff u u2 staged h ∧
    primCount (commitLoop u folder staged j recs disk sd res nid failAt).records u2 h ≤ 1 ∧
    (primCount recs u2 h + kEff u u2 staged h = 0 →
      primCount (commitLoop u folder staged j recs disk sd res nid failAt).records u2 h = 0) ∧
    (0 < primCount recs u2 h + kEff u u2 staged h →
      primCount (commitLoop u folder staged j recs disk sd res nid failAt).records u2 h = 1) := by
  induction staged with
  | nil =>
    intro j recs disk sd res nid failAt hle hfail
    simp only [commitLoop, kEff_nil]
    exact ⟨by omega, hle, fun h0 => by omega, fun h0 => by omega⟩
  | cons t rest ih =>
    intro j recs disk sd res nid failAt hle hfail
    rw [kEff_cons]
    cases hf : findPrimary recs u t.filehash with
    | some e =>
      simp only [commitLoop, hf] at hfail ⊢
      have hPf : isPrimaryFor u2 h
          (mkEntry nid t.filename e.filepath t.filehash u true t.size folder) = false := by
        simp [isPrimaryFor, mkEntry]
      have hPC : primCount
          (recs ++ [mkEntry nid t.filename e.filepath t.filehash u true t.size folder]) u2 h =
          primCount recs u2 h := by
        rw [primCount_snoc, hPf]
        simp
      have hUH : userHashCount
          (recs ++ [mkEntry nid t.filename e.filepath t.filehash u true t.size folder]) u2 h =
          userHashCount recs u2 h + (if (t.filehash == h && u == u2) = true then 1 else 0) := by
        rw [userHashCount_snoc]
        simp [mkEntry]
      obtain ⟨ih1, ih2, ih3, ih4⟩ := ih (j + 1)
        (recs ++ [mkEntry nid t.filename e.filepath t.filehash u true t.size folder]) disk
        (sd.filter (fun q => q != t.path)) (res ++ [(t.filename, true)]) (nid + 1) failAt
        (by rw [hPC]; exact hle) hfail
      refine ⟨?_, ih2, ?_, ?_⟩
      · rw [ih1, hUH]
        by_cases hδ : (t.filehash == h && u == u2) = true <;> simp [hδ] <;> omega
      · intro h0
        by_cases hδ : (t.filehash == h && u == u2) = true
        · rw [if_pos hδ] at h0
          omega
        · rw [if_neg hδ] at h0
          apply ih3
          rw [hPC]
          omega
      · intro h0
        by_cases hδ : (t.filehash == h && u == u2) = true
        · simp only [Bool.and_eq_true, beq_iff_eq] at hδ
          obtain ⟨hth, hu⟩ := hδ
          subst hth
          subst hu
          have hpos := primCount_pos_of_some recs u t.filehash e hf
          apply ih4
          rw [hPC]
          omega
        · rw [if_neg hδ] at h0
          apply ih4
          rw [hPC]
          omega
    | none =>
      simp only [commitLoop, hf] at hfail ⊢
      by_cases hj : (failAt == FailAt.commitRename j) = true
      · rw [if_pos hj] at hfail
        exact absurd hfail (by simp)
      · rw [if_neg hj] at hfail ⊢
        have hPt : isPrimaryFor u2 h (mkEntry nid t.filename (finalPath u t.filehash) t.filehash u
            false t.size folder) = (t.filehash == h && u == u2) := by
          simp [isPrimaryFor, mkEntry]
        have hPC : primCount (recs ++ [mkEntry nid t.filename (finalPath u t.filehash) t.filehash u
            false t.size folder]) u2 h =
            primCount recs u2 h + (if (t.filehash == h && u == u2) = true then 1 else 0) := by
          rw [primCount_snoc, hPt]
        have hUH : userHashCount (recs ++ [mkEntry nid t.filename (finalPath u t.filehash)
            t.filehash u false t.size folder]) u2 h =
            userHashCount recs u2 h + (if (t.filehash == h && u == u2) = true then 1 else 0) := by
          rw [userHashCount_snoc]
          simp [mkEntry]
        have hle2 : primCount (recs ++ [mkEntry nid t.filename (finalPath u t.filehash) t.filehash
            u false t.size folder]) u2 h ≤ 1 := by
          rw [hPC]
          by_cases hδ : (t.filehash == h && u == u2) = true
          · simp only [Bool.and_eq_true, beq_iff_eq] at hδ
            obtain ⟨hth, hu⟩ := hδ
            subst hth
            subst hu
            have h1 := primCount_zero_of_none recs u t.filehash hf
            simp [h1]
          · rw [if_neg hδ]
            omega
        obtain ⟨ih1, ih2, ih3, ih4⟩ := ih (j + 1)
          (recs ++ [mkEntry nid t.filename (finalPath u t.filehash) t.filehash u false t.size
            folder]) (if disk.contains (finalPath u t.filehash) = true then disk
              else disk ++ [finalPath u t.filehash])
          (sd.filter (fun q => q != t.path)) (res ++ [(t.filename, false)]) (nid + 1) failAt
          hle2 hfail
        refine ⟨?_, ih2, ?_, ?_⟩
        · rw [ih1, hUH]
          by_cases hδ : (t.filehash == h && u == u2) = true <;> simp [hδ] <;> omega
        · intro h0
          apply ih3
          rw [hPC]
          omega
        · intro h0
          apply ih4
          rw [hPC]
          omega

/-! ### Staging-loop lemmas -/

theorem stage_nofail (recs : List FileRecord) (u : String) (files : List InFile) :
    ∀ (i nt : Nat) (acc : List Staged) (ns : Nat) (sd : List String),
    (stageLoop recs u files i nt acc ns sd FailAt.nofail).failed = false := by
  induction files with
  | nil => intro i nt acc ns sd; rfl
  | cons f rest ih =>
    intro i nt acc ns sd
    by_cases hfn : (f.filename == "") = true
    · simp only [stageLoop, hfn, if_true]
      exact ih _ _ _ _ _
    · simp only [stageLoop, hfn]
      rw [if_neg (by simp)]
      rw [show (FailAt.nofail == FailAt.stageWrite i) = false from rfl]
      simp only [Bool.false_eq_true, if_false]
      exact ih _ _ _ _ _

theorem stage_props (recs : List FileRecord) (u : String) (fa : FailAt) (files : List InFile) :
    ∀ (i nt : Nat) (acc : List Staged) (ns : Nat) (sd : List String),
    (stageLoop recs u files i nt acc ns sd fa).failed = false →
    (stageLoop recs u files i nt acc ns sd fa).newSize = ns + projectedNewBytes recs u files ∧
    ∃ news : List Staged,
      (stageLoop recs u files i nt acc ns sd fa).stagedFiles = acc ++ news ∧
      (stageLoop recs u files i nt acc ns sd fa).staged = sd ++ news.map (fun t => t.path) ∧
      ∀ h : String, (news.filter (fun t => t.filehash == h)).length = batchK files h := by
  induction files with
  | nil =>
    intro i nt acc ns sd hfail
    exact ⟨by simp [stageLoop, projectedNewBytes], [], by simp [stageLoop],
      by simp [stageLoop], fun h => by simp [batchK]⟩
  | cons f rest ih =>
    intro i nt acc ns sd hfail
    by_cases hfn : (f.filename == "") = true
    · simp only [stageLoop, hfn, if_true] at hfail ⊢
      obtain ⟨h1, news, h2, h3, h4⟩ := ih (i + 1) nt acc ns sd hfail
      have hfe : f.filename = "" := by simpa using hfn
      refine ⟨?_, news, h2, h3, ?_⟩
      · rw [h1]
        congr 1
        simp [projectedNewBytes, List.filter_cons, hfe]
      · intro h
        rw [h4 h]
        simp [batchK, List.filter_cons, hfe]
    · simp only [stageLoop, hfn] at hfail ⊢
      rw [if_neg (by simp)] at hfail ⊢
      by_cases hsw : (fa == FailAt.stageWrite i) = true
      · rw [if_pos hsw] at hfail
        simp at hfail
      · rw [if_neg hsw] at hfail ⊢
        obtain ⟨h1, news, h2, h3, h4⟩ := ih (i + 1) (nt + 1)
          (acc ++ [⟨tempName nt f.filename, f.filename, f.filehash, f.size⟩])
          (if (findPrimary recs u f.filehash).isSome = true then ns else ns + f.size)
          (sd ++ [tempName nt f.filename]) hfail
        refine ⟨?_, ⟨tempName nt f.filename, f.filename, f.filehash, f.size⟩ :: news, ?_, ?_, ?_⟩
        · rw [h1]
          have hproj : projectedNewBytes recs u (f :: rest) =
              (if (findPrimary recs u f.filehash).isSome = true then 0 else f.size) +
                projectedNewBytes recs u rest := by
            simp only [projectedNewBytes, List.filter_cons]
            rw [if_pos (by simpa using hfn)]
            simp only [List.map_cons, List.sum_cons]
          rw [hproj]
          by_cases hps : (findPrimary recs u f.filehash).isSome = true
          · rw [if_pos hps, if_pos hps]
            omega
          · rw [if_neg hps, if_neg hps]
            omega
        · rw [h2]
          simp
        · rw [h3]
          simp
        · intro h
          have hb : batchK (f :: rest) h =
              (if (f.filehash == h) = true then 1 else 0) + batchK rest h := by
            simp only [batchK, List.filter_cons]
            by_cases hfh : (f.filehash == h) = true
            · have hfne : ¬f.filename = "" := by simpa using hfn
              have hfhe : f.filehash = h := by simpa using hfh
              rw [if_pos (by simp [hfne, hfhe]), if_pos hfh]
              simp [Nat.add_comm]
            · have hfhe : ¬f.filehash = h := by simpa using hfh
              rw [if_neg (by simp [hfhe]), if_neg hfh]
              simp
          rw [hb, ← h4 h]
          rw [List.filter_cons]
          by_cases hfh : (f.filehash == h) = true
          · rw [if_pos hfh, if_pos hfh]
            simp [Nat.add_comm]
          · rw [if_neg hfh, if_neg hfh]
            simp

/-! ### Cleanup lemmas -/

theorem removePaths_eq_filter : ∀ (ps l : List String),
    removePaths l ps = l.filter (fun x => !(ps.contains x))
  | [], l => by simp [removePaths]
  | p :: ps, l => by
    have ih := removePaths_eq_filter ps (l.filter (fun q => q != p))
    simp only [removePaths, List.foldl_cons] at ih ⊢
    rw [ih, List.filter_filter]
    apply List.filter_congr
    intro x _
    rw [show ((p :: ps).contains x) = (x == p || ps.contains x) from rfl]
    cases hxp : (x == p) <;> cases hc : ps.contains x <;> simp [bne, hxp, hc]

theorem removePaths_append_sublist (a ps : List String) :
    (removePaths (a ++ ps) ps).Sublist a := by
  rw [removePaths_eq_filter, List.filter_append]
  have h2 : ps.filter (fun x => !(ps.contains x)) = [] := by
    rw [List.filter_eq_nil_iff]
    intro x hx
    simp [hx]
  rw [h2, List.append_nil]
  exact List.filter_sublist a

/-! ### Upload-route lemmas -/

theorem uploadGo_inv (s1 : State) (u f : String) (files : List InFile) (fa : FailAt)
    (h : dedupInv s1.records) : dedupInv (uploadGo s1 u f files fa).state.records := by
  simp only [uploadGo]
  split
  · exact h
  · split
    · exact h
    · split
      · exact commit_inv _ _ _ _ _ _ _ _ _ _ h
      · exact commit_inv _ _ _ _ _ _ _ _ _ _ h

theorem uploadGo_token (s1 : State) (u f : String) (files : List InFile) (fa : FailAt)
    (h : tokenConsistent s1.records) : tokenConsistent (uploadGo s1 u f files fa).state.records := by
  simp only [uploadGo]
  split
  · exact h
  · split
    · exact h
    · split
      · exact commit_token _ _ _ _ _ _ _ _ _ _ h
      · exact commit_token _ _ _ _ _ _ _ _ _ _ h

theorem upload_inv (s : State) (u : String) (now : Rat) (folder : String) (files : List InFile)
    (fa : FailAt) (h : dedupInv s.records) :
    dedupInv (upload s u now folder files fa).state.records := by
  rw [upload]
  split
  · exact h
  · split
    · exact h
    · exact uploadGo_inv _ _ _ _ _ h

theorem upload_token (s : State) (u : String) (now : Rat) (folder : String) (files : List InFile)
    (fa : FailAt) (h : tokenConsistent s.records) :
    tokenConsistent (upload s u now folder files fa).state.records := by
  rw [upload]
  split
  · exact h
  · split
    · exact h
    · exact uploadGo_token _ _ _ _ _ h

theorem uploadGo_counts (s1 : State) (u f : String) (files : List InFile) (fa : FailAt)
    (u2 h : String) (hle : primCount s1.records u2 h ≤ 1)
    (hok : isOk (uploadGo s1 u f files fa).outcome = true) :
    userHashCount (uploadGo s1 u f files fa).state.records u2 h =
      userHashCount s1.records u2 h + fEff u u2 files h ∧
    primCount (uploadGo s1 u f files fa).state.records u2 h ≤ 1 ∧
    (primCount s1.records u2 h + fEff u u2 files h = 0 →
      primCount (uploadGo s1 u f files fa).state.records u2 h = 0) ∧
    (0 < primCount s1.records u2 h + fEff u u2 files h →
      primCount (uploadGo s1 u f files fa).state.records u2 h = 1) := by
  simp only [uploadGo] at hok ⊢
  set st := stageLoop s1.records u files 0 s1.nextTemp [] 0 s1.staged fa with hst
  by_cases hsf : st.failed = true
  · rw [if_pos hsf] at hok
    simp [isOk] at hok
  · rw [if_neg hsf] at hok ⊢
    have hsf2 : st.failed = false := by simpa using hsf
    by_cases hq : USER_QUOTA_BYTES < get_actual_storage s1.records u + st.newSize
    · rw [if_pos hq] at hok
      simp [isOk] at hok
    · rw [if_neg hq] at hok ⊢
      set c := commitLoop u (normalize_folder_path f) st.stagedFiles 0 s1.records s1.disk
        st.staged [] s1.nextId fa with hc
      by_cases hcf : c.failed = true
      · rw [if_pos hcf] at hok
        simp [isOk] at hok
      · rw [if_neg hcf] at hok ⊢
        have hcf2 : c.failed = false := by simpa using hcf
        obtain ⟨h1, news, h2, h3, h4⟩ := stage_props s1.records u fa files 0 s1.nextTemp [] 0
          s1.staged (by rw [← hst] at *; exact hsf2)
        rw [← hst] at h2
        have hsf3 : st.stagedFiles = news := by simpa using h2
        have hke : kEff u u2 st.stagedFiles h = fEff u u2 files h := by
          rw [hsf3]
          unfold kEff fEff
          by_cases hu : (u == u2) = true
          · rw [if_pos hu, if_pos hu, h4 h]
          · rw [if_neg hu, if_neg hu]
        have hcc := commit_counts u (normalize_folder_path f) u2 h st.stagedFiles 0 s1.records
          s1.disk st.staged [] s1.nextId fa hle (by rw [← hc]; exact hcf2)
        rw [← hc, hke] at hcc
        exact hcc

theorem upload_counts (s : State) (u : String) (now : Rat) (folder : String)
    (files : List InFile) (fa : FailAt) (u2 h : String) (hle : primCount s.records u2 h ≤ 1)
    (hok : isOk (upload s u now folder files fa).outcome = true) :
    userHashCount (upload s u now folder files fa).state.records u2 h =
      userHashCount s.records u2 h + fEff u u2 files h ∧
    primCount (upload s u now folder files fa).state.records u2 h ≤ 1 ∧
    (primCount s.records u2 h + fEff u u2 files h = 0 →
      primCount (upload s u now folder files fa).state.records u2 h = 0) ∧
    (0 < primCount s.records u2 h + fEff u u2 files h →
      primCount (upload s u now folder files fa).state.records u2 h = 1) := by
  rw [upload] at hok ⊢
  by_cases hall : (files.all (fun f => f.filename == "")) = true
  · rw [if_pos hall] at hok
    simp [isOk] at hok
  · rw [if_neg hall] at hok ⊢
    by_cases hrb : rateBlocked s.lastUpload u now = true
    · rw [if_pos hrb] at hok
      simp [isOk] at hok
    · rw [if_neg hrb] at hok ⊢
      exact uploadGo_counts _ _ _ _ _ _ _ hle hok

theorem seq_counts (u h : String) (bs : List Batch) : ∀ (s : State), dedupInv s.records →
    dedupInv (uploadSeq s bs).records ∧
    (uploadSeqOk s bs = true →
      userHashCount (uploadSeq s bs).records u h = userHashCount s.records u h + seqK bs u h ∧
      primCount (uploadSeq s bs).records u h ≤ 1 ∧
      (primCount s.records u h + seqK bs u h = 0 → primCount (uploadSeq s bs).records u h = 0) ∧
      (0 < primCount s.records u h + seqK bs u h →
        primCount (uploadSeq s bs).records u h = 1)) := by
  induction bs with
  | nil =>
    intro s hinv
    refine ⟨hinv, fun _ => ?_⟩
    have hle := primCount_le_one s.records hinv.1 u h
    simp only [uploadSeq, seqK, List.map_nil, List.sum_nil]
    exact ⟨by omega, hle, fun h0 => by omega, fun h0 => by omega⟩
  | cons b rest ih =>
    intro s hinv
    have hinv2 := upload_inv s b.username b.now b.folder b.files b.failAt hinv
    have hle := primCount_le_one s.records hinv.1 u h
    constructor
    · exact (ih _ hinv2).1
    · intro hok
      cases hout : (upload s b.username b.now b.folder b.files b.failAt).outcome with
      | noFiles => simp [uploadSeqOk, hout] at hok
      | rateLimited => simp [uploadSeqOk, hout] at hok
      | quotaExceeded => simp [uploadSeqOk, hout] at hok
      | internalError => simp [uploadSeqOk, hout] at hok
      | ok res =>
        simp only [uploadSeqOk, hout] at hok
        have hisok : isOk (upload s b.username b.now b.folder b.files b.failAt).outcome = true := by
          rw [hout]
          rfl
        obtain ⟨s1, s2, s3, s4⟩ := upload_counts s b.username b.now b.folder b.files b.failAt u h
          hle hisok
        obtain ⟨r1, r2, r3, r4⟩ := (ih _ hinv2).2 hok
        have hsk : seqK (b :: rest) u h = fEff b.username u b.files h + seqK rest u h := by
          simp [seqK, fEff]
        rw [hsk]
        simp only [uploadSeq]
        refine ⟨?_, r2, ?_, ?_⟩
        · rw [r1, s1]
          omega
        · intro h0
          apply r3
          have hps := s3 (by omega)
          omega
        · intro h0
          by_cases hz : 0 < primCount s.records u h + fEff b.username u b.files h
          · have h1b := s4 hz
            apply r4
            omega
          · have hz2 : primCount s.records u h + fEff b.username u b.files h = 0 := by omega
            have hps := s3 hz2
            apply r4
            omega

/-! ### Quota gate -/

theorem uploadGo_quota (s1 : State) (u folderRaw : String) (files : List InFile) :
    ((uploadGo s1 u folderRaw files FailAt.nofail).outcome = UploadOutcome.quotaExceeded ↔
      USER_QUOTA_BYTES < get_actual_storage s1.records u + projectedNewBytes s1.records u files) ∧
    ((uploadGo s1 u folderRaw files FailAt.nofail).outcome = UploadOutcome.quotaExceeded →
      (uploadGo s1 u folderRaw files FailAt.nofail).state.records = s1.records ∧
      (uploadGo s1 u folderRaw files FailAt.nofail).state.disk = s1.disk ∧
      (uploadGo s1 u folderRaw files FailAt.nofail).state.staged.Sublist s1.staged) := by
  simp only [uploadGo]
  set st := stageLoop s1.records u files 0 s1.nextTemp [] 0 s1.staged FailAt.nofail with hst
  have hsf : st.failed = false := by
    rw [hst]
    exact stage_nofail s1.records u files 0 s1.nextTemp [] 0 s1.staged
  rw [if_neg (by simp [hsf])]
  obtain ⟨h1, news, h2, h3, h4⟩ := stage_props s1.records u FailAt.nofail files 0 s1.nextTemp
    [] 0 s1.staged (by rw [← hst]; exact hsf)
  rw [← hst] at h1 h2 h3
  by_cases hq : USER_QUOTA_BYTES < get_actual_storage s1.records u + st.newSize
  · rw [if_pos hq]
    refine ⟨⟨fun _ => ?_, fun _ => rfl⟩, fun _ => ⟨rfl, rfl, ?_⟩⟩
    · rw [h1] at hq
      simpa using hq
    · rw [h3, h2]
      simp only [List.nil_append]
      exact removePaths_append_sublist s1.staged (news.map (fun t => t.path))
  · rw [if_neg hq]
    have hcf : (commitLoop u (normalize_folder_path folderRaw) st.stagedFiles 0 s1.records
        s1.disk st.staged [] s1.nextId FailAt.nofail).failed = false :=
      commit_nofail u (normalize_folder_path folderRaw) st.stagedFiles 0 s1.records s1.disk
        st.staged [] s1.nextId
    rw [if_neg (by simp [hcf])]
    refine ⟨⟨fun habs => ?_, fun hq2 => ?_⟩, fun habs => ?_⟩
    · exact absurd habs (by simp)
    · exfalso
      rw [h1] at hq
      omega
    · exact absurd habs (by simp)

/-- C1 (amended): with no staging failure, for a non-empty batch that passes
the rate check, the batch is rejected with the quota outcome exactly when
actualStorage plus the staging projection exceeds the quota, where the
projection counts the size of every batch file having no pre-batch primary
row (so several identical new files are each counted); on quota rejection the
database rows and the committed objects are unchanged and every temp file
staged by the batch has been removed. -/
theorem quota_gate_projected (s : State) (u : String) (now : Rat) (folder : String)
    (files : List InFile)
    (hne : files.all (fun f => f.filename == "") = false)
    (hrb : rateBlocked s.lastUpload u now = false) :
    ((upload s u now folder files FailAt.nofail).outcome = UploadOutcome.quotaExceeded ↔
      USER_QUOTA_BYTES < get_actual_storage s.records u + projectedNewBytes s.records u files) ∧
    ((upload s u now folder files FailAt.nofail).outcome = UploadOutcome.quotaExceeded →
      (upload s u now folder files FailAt.nofail).state.records = s.records ∧
      (upload s u now folder files FailAt.nofail).state.disk = s.disk ∧
      (upload s u now folder files FailAt.nofail).state.staged.Sublist s.staged) := by
  have hu : upload s u now folder files FailAt.nofail =
      uploadGo { s with lastUpload := setLast s.lastUpload u now } u folder files
        FailAt.nofail := by
    rw [upload, if_neg (by simp [hne]), if_neg (by simp [hrb])]
  rw [hu]
  exact uploadGo_quota { s with lastUpload := setLast s.lastUpload u now } u folder files

/-- Witness for C1: the amended quota gate fires on a batch of two identical
6 MiB files uploaded into an empty account. -/
theorem quota_gate_projected_witness :
    (upload initState "u" 0 "/" cexFiles FailAt.nofail).outcome =
      UploadOutcome.quotaExceeded := by
  have h := quota_gate_projected initState "u" 0 "/" cexFiles (by decide) (by decide)
  exact h.1.mpr (by decide)

/-- Counterexample for C1 as frozen: a batch of two identical new 6 MiB files
would commit as one 6 MiB primary plus one duplicate, so its new-primary bytes
fit the 10 MB quota, yet the batch is rejected with the quota outcome because
the projection counts both copies. -/
theorem quota_gate_claim_counterexample :
    get_actual_storage initState.records "u" +
      newPrimaryBytes initState.records "u" cexFiles ≤ USER_QUOTA_BYTES ∧
    (upload initState "u" 0 "/" cexFiles FailAt.nofail).outcome =
      UploadOutcome.quotaExceeded := by
  constructor
  · decide
  · decide

/-- C2: a staging write failure on the first file of a batch is surfaced as a
single internal-error outcome, but the partially written temporary file
created by open() before the failure is left behind: the cleanup loop only
removes the fully staged entries of temp_files, contradicting the requirement
that every staged temporary file created during the batch be removed. -/
theorem staging_leak_on_write_failure :
    (upload initState "u" 0 "/" [⟨"a.txt", "h1", 5⟩] (FailAt.stageWrite 0)).outcome =
      UploadOutcome.internalError ∧
    (upload initState "u" 0 "/" [⟨"a.txt", "h1", 5⟩] (FailAt.stageWrite 0)).state.staged =
      [tempName 0 "a.txt"] := by
  constructor
  · decide
  · decide

/-! ### Share-token consistency -/

theorem create_folder_records (s : State) (u fname : String) :
    create_folder s u fname = s ∨
    ∃ m : FileRecord, m.share_token = none ∧ m.is_public = false ∧
      (create_folder s u fname).records = s.records ++ [m] := by
  rw [create_folder]
  by_cases h1 : (String.mk (pyStripList fname.data) == "") = true
  · rw [if_pos h1]
    exact Or.inl rfl
  · rw [if_neg h1]
    by_cases h2 : (normalize_folder_path (String.mk (pyStripList fname.data)) == "/") = true
    · rw [if_pos h2]
      exact Or.inl rfl
    · rw [if_neg h2]
      by_cases h3 : (s.records.any fun r => r.username == u &&
          r.folder == normalize_folder_path (String.mk (pyStripList fname.data)) &&
          folderMarkerLike r.filename) = true
      · rw [if_pos h3]
        exact Or.inl rfl
      · rw [if_neg h3]
        exact Or.inr ⟨_, rfl, rfl, rfl⟩

theorem toggle_share_token (s : State) (u : String) (fid : Nat)
    (hinv : tokenConsistent s.records) :
    tokenConsistent (toggle_share s u fid).1.records := by
  cases hfind : s.records.find? (fun r => r.id == fid && r.username == u) with
  | none =>
    simp only [toggle_share, hfind]
    exact hinv
  | some file =>
    simp only [toggle_share, hfind]
    intro r hr
    obtain ⟨orig, horig, heq⟩ := List.mem_map.mp hr
    by_cases hcond : (orig.id == fid && orig.username == u) = true
    · rw [if_pos hcond] at heq
      rw [← heq]
      cases hpub : file.is_public <;> simp [hpub]
    · rw [if_neg hcond] at heq
      rw [← heq]
      exact hinv orig horig

/-- C8: every operation that can change the public-sharing state preserves
the invariant that a share token is present exactly on public rows: rows
created by upload and create_folder start non-public with no token, delete
only removes rows, and toggle_share on a non-public row sets the flag and a
token while on a public row it clears both. -/
theorem share_token_consistency (s : State) (u : String) (now : Rat) (folder fname : String)
    (files : List InFile) (fa : FailAt) (fid : Nat)
    (hinv : tokenConsistent s.records) :
    tokenConsistent (upload s u now folder files fa).state.records ∧
    tokenConsistent (create_folder s u fname).records ∧
    tokenConsistent (toggle_share s u fid).1.records ∧
    tokenConsistent (delete s u fid).1.records ∧
    (∀ file : FileRecord,
      s.records.find? (fun r => r.id == fid && r.username == u) = some file →
      ∀ r ∈ (toggle_share s u fid).1.records, r.id = fid → r.username = u →
        r.is_public = !file.is_public ∧ r.share_token.isSome = !file.is_public) := by
  refine ⟨upload_token s u now folder files fa hinv, ?_,
    toggle_share_token s u fid hinv, ?_, ?_⟩
  · rcases create_folder_records s u fname with heq | ⟨m, hm1, hm2, hm3⟩
    · rw [heq]
      exact hinv
    · rw [hm3]
      exact tokenConsistent_snoc s.records m hinv (by rw [hm1, hm2]; rfl)
  · cases hfind : s.records.find? (fun r => r.id == fid && r.username == u) with
    | none =>
      simp only [delete, hfind]
      exact hinv
    | some file =>
      simp only [delete, hfind]
      intro r hr
      exact hinv r (List.mem_of_mem_filter hr)
  · intro file hfind r hr hid huser
    simp only [toggle_share, hfind] at hr
    obtain ⟨orig, horig, heq⟩ := List.mem_map.mp hr
    by_cases hcond : (orig.id == fid && orig.username == u) = true
    · rw [if_pos hcond] at heq
      rw [← heq]
      cases hpub : file.is_public <;> simp [hpub]
    · rw [if_neg hcond] at heq
      subst heq
      exact absurd (by simp [hid, huser]) hcond

/-- Witness for C8: toggling the sample non-public row makes it public with a
token present, and consistency holds for the whole table. -/
theorem share_token_consistency_witness :
    tokenConsistent (toggle_share stateA "u" 1).1.records ∧
    ∀ r ∈ (toggle_share stateA "u" 1).1.records, r.id = 1 → r.username = "u" →
      r.is_public = true ∧ r.share_token.isSome = true := by
  have h := share_token_consistency stateA "u" 0 "/" "d" ([] : List InFile) FailAt.nofail 1
    (by decide)
  refine ⟨h.2.2.1, ?_⟩
  intro r hr hid huser
  have h5 := h.2.2.2.2 recA (by decide) r hr hid huser
  constructor
  · rw [h5.1]
    decide
  · rw [h5.2]
    decide

/-! ### Per-user deduplication across upload sequences -/

/-- C4: starting from any state satisfying the dedup invariant with no rows
for the pair (u, h), any sequence of upload requests preserves the invariant
(at most one primary per owner and fingerprint, every duplicate pointing at
the physical location of a primary); and when every batch is accepted, N
uploaded files of that content leave exactly N rows: one primary and N - 1
duplicates. -/
theorem dedup_invariant_uploads (s : State) (bs : List Batch) (u h : String)
    (hinv : dedupInv s.records) (hzero : userHashCount s.records u h = 0) :
    dedupInv (uploadSeq s bs).records ∧
    (uploadSeqOk s bs = true →
      userHashCount (uploadSeq s bs).records u h = seqK bs u h ∧
      primCount (uploadSeq s bs).records u h = min 1 (seqK bs u h) ∧
      dupCount (uploadSeq s bs).records u h = seqK bs u h - min 1 (seqK bs u h)) := by
  obtain ⟨c1, c2⟩ := seq_counts u h bs s hinv
  refine ⟨c1, fun hok => ?_⟩
  obtain ⟨r1, r2, r3, r4⟩ := c2 hok
  have hsplit0 := count_split s.records u h
  have hps : primCount s.records u h = 0 := by omega
  have htot : userHashCount (uploadSeq s bs).records u h = seqK bs u h := by
    rw [r1]
    omega
  have hprim : primCount (uploadSeq s bs).records u h = min 1 (seqK bs u h) := by
    rcases Nat.eq_zero_or_pos (seqK bs u h) with hz | hp
    · have h0 := r3 (by omega)
      rw [h0, hz]
      simp
    · have h1b := r4 (by omega)
      rw [h1b]
      exact (Nat.min_eq_left hp).symm
  refine ⟨htot, hprim, ?_⟩
  have hsplit := count_split (uploadSeq s bs).records u h
  omega

/-- Witness for C4: one accepted batch with two identical files yields one
primary row and one duplicate row while keeping the invariant. -/
theorem dedup_invariant_uploads_witness :
    dedupInv (uploadSeq initState [batchW]).records ∧
    userHashCount (uploadSeq initState [batchW]).records "u" "h1" = 2 ∧
    primCount (uploadSeq initState [batchW]).records "u" "h1" = 1 ∧
    dupCount (uploadSeq initState [batchW]).records "u" "h1" = 1 := by
  have h := dedup_invariant_uploads initState [batchW] "u" "h1" (by decide) (by decide)
  have h2 := h.2 (by decide)
  refine ⟨h.1, ?_, ?_, ?_⟩
  · rw [h2.1]
    decide
  · rw [h2.2.1]
    decide
  · rw [h2.2.2]
    decide

end VinnoDrive
